import Mathlib

/-!
Verification of the quota / rate-limit / streaming core of the
manifold streaming-inference service (Go sources under src/).

The development shallowly embeds the two revisions present in the
repository:
* the monolithic revision (`main.go`): `mainAvailable` (getUserWordsLeft),
  `mainCharge` (decrementWordsByCount), `mainGetUserStats`
  (getUserStatsHandler), `mainSessionRun` (generateDataHandler loop);
* the handlers revision (`internal/...`): `updateWordsLeftVal`
  (UserService.UpdateWordsLeft), `handlersCharge`, `handlersGetUserStats`
  (Handler.GetUserStats), `sessionRun` (Handler.GenerateData loop),
  `isAllowed` (RateLimiter.IsAllowed).

Machine integers are modelled as `Int`/`Nat` (the Go values involved stay
far from the 64-bit range); wall-clock instants are `Nat` nanoseconds;
the Redis cache is a TTL key-value entry (value, writeTime); the MySQL
row for one user is an `Option UserRecord`.
-/

namespace Manifold

/-! ## Quota ledger: the two charge computations

`chargeNewWordsLeft` embeds the arithmetic of `decrementWordsByCount`
(src/main.go lines 382-385):

    newWordsLeft := wordsLeft - wordCount
    if newWordsLeft < 0 { newWordsLeft = 0 }

`updateWordsLeftVal` embeds the SQL of `UserService.UpdateWordsLeft`
(src/internal/models/models.go line 95):

    UPDATE users SET words_left = GREATEST(0, words_left - ?)
-/

def chargeNewWordsLeft (wordsLeft wordCount : Int) : Int :=
  let newWordsLeft := wordsLeft - wordCount
  if newWordsLeft < 0 then 0 else newWordsLeft

def updateWordsLeftVal (wordsLeft wordsUsed : Int) : Int :=
  max 0 (wordsLeft - wordsUsed)

theorem chargeNewWordsLeft_eq_updateWordsLeftVal (w c : Int) :
    chargeNewWordsLeft w c = updateWordsLeftVal w c := by
  simp only [chargeNewWordsLeft, updateWordsLeftVal]
  split <;> omega

theorem chargeNewWordsLeft_nonneg (w c : Int) :
    0 ≤ chargeNewWordsLeft w c := by
  simp only [chargeNewWordsLeft]
  split <;> omega

theorem list_sum_nonneg_of_forall (cs : List Int) (h : ∀ c ∈ cs, 0 ≤ c) :
    0 ≤ cs.sum := by
  induction cs with
  | nil => simp
  | cons c cs ih =>
      have hc : 0 ≤ c := h c (List.mem_cons_self c cs)
      have hcs : 0 ≤ cs.sum := ih (fun x hx => h x (List.mem_cons_of_mem c hx))
      simp only [List.sum_cons]
      omega

theorem foldl_charge_eq_max (cs : List Int) :
    ∀ w0 : Int, 0 ≤ w0 → (∀ c ∈ cs, 0 ≤ c) →
      cs.foldl chargeNewWordsLeft w0 = max 0 (w0 - cs.sum) := by
  induction cs with
  | nil => intro w0 hw _; simp; omega
  | cons c cs ih =>
      intro w0 hw hcs
      have hc : 0 ≤ c := hcs c (List.mem_cons_self c cs)
      have hrest : ∀ x ∈ cs, 0 ≤ x := fun x hx => hcs x (List.mem_cons_of_mem c hx)
      have hsum : 0 ≤ cs.sum := list_sum_nonneg_of_forall cs hrest
      have h1 := ih (chargeNewWordsLeft w0 c) (chargeNewWordsLeft_nonneg w0 c) hrest
      simp only [List.foldl_cons, List.sum_cons, h1]
      simp only [chargeNewWordsLeft]
      split <;> omega

/-- C1: applying any sequence of Charge calls with non-negative amounts
(total C) to a non-negative initial durable wordsLeft yields exactly
max(0, initialWordsLeft − C), and no individual Charge ever produces a
negative wordsLeft. -/
theorem charge_sequence_max_zero (w0 : Int) (cs : List Int)
    (hw : 0 ≤ w0) (hcs : ∀ c ∈ cs, 0 ≤ c) :
    cs.foldl chargeNewWordsLeft w0 = max 0 (w0 - cs.sum) ∧
      ∀ w c : Int, 0 ≤ chargeNewWordsLeft w c :=
  ⟨foldl_charge_eq_max cs w0 hw hcs, fun w c => chargeNewWordsLeft_nonneg w c⟩

theorem charge_sequence_max_zero_witness :
    [(4 : Int), 9].foldl chargeNewWordsLeft 10 = max 0 (10 - [(4 : Int), 9].sum) ∧
      ∀ w c : Int, 0 ≤ chargeNewWordsLeft w c :=
  charge_sequence_max_zero 10 [4, 9] (by decide) (by decide)

/-! ## System state of the monolithic revision (main.go)

One user's durable MySQL row (`users` table: `words_left`, `total_words`)
and the Redis key `user_words:<userID>` holding an integer wordsLeft with
a 5-minute TTL.  A cache entry carries its write instant (nanoseconds);
a `GET` at instant `t` hits only while `t < writeTime + cacheTTLNs`.
-/

structure UserRecord where
  wordsLeft : Int
  totalWords : Int
  deriving Repr, DecidableEq

structure SysState where
  durable : Option UserRecord
  cache : Option (Int × Nat)
  deriving Repr, DecidableEq

/-- 5 minutes in nanoseconds (the Redis TTL used by both revisions). -/
def cacheTTLNs : Nat := 300000000000

def cacheGet (t : Nat) (s : SysState) : Option Int :=
  match s.cache with
  | some (v, wt) => if t < wt + cacheTTLNs then some v else none
  | none => none

/-- `getUserWordsLeft` (src/main.go lines 331-362): read-through read of
the remaining quota.  Cache hit returns the cached integer; on a miss the
durable row is read; an absent row is created with the default
1,000,000/1,000,000 quota and 1,000,000 is returned (note: this branch
does not write the cache); a present row's value is written to the cache
and returned. -/
def mainAvailable (t : Nat) (s : SysState) : Int × SysState :=
  match cacheGet t s with
  | some v => (v, s)
  | none =>
    match s.durable with
    | none =>
        (1000000, { s with durable := some ⟨1000000, 1000000⟩ })
    | some u =>
        (u.wordsLeft, { s with cache := some (u.wordsLeft, t) })

/-- `decrementWordsByCount` (src/main.go lines 365-407): transactional
read-modify-write of the durable row (`SELECT ... FOR UPDATE` then
`UPDATE`), flooring at zero; an absent row aborts (ErrNoRows) with no
state change.  After the commit the code executes
`s.redis.Set(ctx, cacheKey, newWordsLeft, 5*time.Minute)` — it overwrites
the cache entry with the committed value rather than deleting it. -/
def mainCharge (t : Nat) (wordCount : Int) (s : SysState) : SysState :=
  match s.durable with
  | none => s
  | some u =>
      let newWordsLeft := chargeNewWordsLeft u.wordsLeft wordCount
      { durable := some { u with wordsLeft := newWordsLeft },
        cache := some (newWordsLeft, t) }

/-- `Handler.GenerateData` reconciliation (src/internal/models/models.go
lines 327-330): on `UpdateWordsLeft` success the handlers revision
deletes the Redis key (`redisClient.Del`).  The SQL `UPDATE` succeeds
even when no row matches, so the deletion is unconditional in the
success path. -/
def handlersCharge (wordsGenerated : Int) (s : SysState) : SysState :=
  { durable := s.durable.map
      (fun u => { u with wordsLeft := updateWordsLeftVal u.wordsLeft wordsGenerated }),
    cache := none }

/-- C2 counterexample: a successful Charge in the main.go revision leaves
the cache entry present — set to the committed value — rather than
deleting it.  Starting from durable wordsLeft 100 and a cache entry
(100, written at 0), `decrementWordsByCount` of 5 at instant 7 commits
and then writes (95, 7) into the cache, so the claim "the cache entry is
deleted, never updated in place" is false for this revision. -/
theorem mainCharge_overwrites_cache :
    (mainCharge 7 5 ⟨some ⟨100, 1000000⟩, some (100, 0)⟩).cache = some (95, 7) := by
  decide

/-- C2 amended: on a successful Charge the handlers revision deletes the
cache entry, while the main.go revision overwrites the cache entry with
the newly committed wordsLeft value (it never deletes it). -/
theorem charge_cache_policy (s : SysState) (u : UserRecord) (t : Nat) (a : Int)
    (hd : s.durable = some u) :
    (handlersCharge a s).cache = none ∧
      (mainCharge t a s).cache = some (chargeNewWordsLeft u.wordsLeft a, t) := by
  constructor
  · rfl
  · simp only [mainCharge, hd]

theorem charge_cache_policy_witness :
    (handlersCharge 5 ⟨some ⟨100, 1000000⟩, some (100, 0)⟩).cache = none ∧
      (mainCharge 7 5 ⟨some ⟨100, 1000000⟩, some (100, 0)⟩).cache =
        some (chargeNewWordsLeft 100 5, 7) :=
  charge_cache_policy ⟨some ⟨100, 1000000⟩, some (100, 0)⟩ ⟨100, 1000000⟩ 7 5 rfl

/-- C5 counterexample: `getUserWordsLeft` on a cache miss with no durable
record creates the default row and returns 1,000,000, but it does not
populate the cache (the `redis.Set` is only on the row-found path), so
the claim's "populates the cache with that value" is false: the
post-state cache is still empty. -/
theorem mainAvailable_create_no_cache :
    mainAvailable 0 ⟨none, none⟩ =
      (1000000, ⟨some ⟨1000000, 1000000⟩, none⟩) := by
  decide

/-- C5 amended: on a cache miss with no durable record, Available creates
the record with wordsLeft = wordsTotal = 1,000,000 and returns 1,000,000
but leaves the cache unchanged (unpopulated); on a cache miss with a
durable record it returns that value and caches it; on a cache hit it
returns the cached value with no state change (no durable read). -/
theorem mainAvailable_spec (t : Nat) (s : SysState) :
    (cacheGet t s = none → s.durable = none →
        mainAvailable t s = (1000000, { s with durable := some ⟨1000000, 1000000⟩ })) ∧
      (∀ u, cacheGet t s = none → s.durable = some u →
        mainAvailable t s = (u.wordsLeft, { s with cache := some (u.wordsLeft, t) })) ∧
      (∀ v, cacheGet t s = some v → mainAvailable t s = (v, s)) := by
  refine ⟨?_, ?_, ?_⟩
  · intro hm hd; simp only [mainAvailable, hm, hd]
  · intro u hm hd; simp only [mainAvailable, hm, hd]
  · intro v hv; simp only [mainAvailable, hv]

theorem mainAvailable_spec_witness :
    mainAvailable 0 ⟨none, none⟩ =
      (1000000, { durable := some ⟨1000000, 1000000⟩, cache := none }) :=
  (mainAvailable_spec 0 ⟨none, none⟩).1 rfl rfl

/-! ## Reachable states of the main.go cache-plus-durable system (C6)

A trace is a sequence of `getUserWordsLeft` and `decrementWordsByCount`
operations applied atomically (the Go code serialises the durable
read-modify-write with `FOR UPDATE`).  The invariant is that whenever a
cache entry is present its value equals the current durable wordsLeft,
because both writers of the cache (the read-through populate and the
post-commit Set) store the value just read from / committed to the
durable row. -/

inductive MainOp where
  | available (t : Nat)
  | charge (t : Nat) (wordCount : Int)
  deriving Repr, DecidableEq

def mainStep (s : SysState) : MainOp → SysState
  | MainOp.available t => (mainAvailable t s).2
  | MainOp.charge t c => mainCharge t c s

def runMain (ops : List MainOp) (s : SysState) : SysState :=
  ops.foldl mainStep s

/-- The initial state: no durable row yet, empty cache. -/
def initState : SysState := ⟨none, none⟩

/-- Cache-durable agreement: any present cache entry holds exactly the
current durable wordsLeft. -/
def CacheAgrees (s : SysState) : Prop :=
  ∀ v wt, s.cache = some (v, wt) → ∃ u, s.durable = some u ∧ u.wordsLeft = v

theorem cacheAgrees_step (s : SysState) (op : MainOp)
    (h : CacheAgrees s) : CacheAgrees (mainStep s op) := by
  cases op with
  | available t =>
      simp only [mainStep, mainAvailable]
      cases hg : cacheGet t s with
      | some v => simpa using h
      | none =>
          cases hd : s.durable with
          | none =>
              intro v wt hc
              rcases h v wt hc with ⟨u, hu, _⟩
              rw [hd] at hu
              exact absurd hu (by simp)
          | some u =>
              intro v wt hc
              simp only [Option.some.injEq, Prod.mk.injEq] at hc
              exact ⟨u, by simp [hd], hc.1⟩
  | charge t c =>
      simp only [mainStep, mainCharge]
      cases hd : s.durable with
      | none => simpa [hd] using h
      | some u =>
          intro v wt hc
          simp only [Option.some.injEq, Prod.mk.injEq] at hc
          exact ⟨_, rfl, hc.1⟩

theorem cacheAgrees_runMain (ops : List MainOp) :
    ∀ s : SysState, CacheAgrees s → CacheAgrees (runMain ops s) := by
  induction ops with
  | nil => intro s h; exact h
  | cons op ops ih =>
      intro s h
      exact ih (mainStep s op) (cacheAgrees_step s op h)

/-- The wordsLeft currently recorded in the durable store (0 when the
row does not exist). -/
def durableWordsLeft (s : SysState) : Int :=
  match s.durable with
  | some u => u.wordsLeft
  | none => 0

theorem mainAvailable_le_of_agrees (t : Nat) (s : SysState)
    (h : CacheAgrees s) :
    (mainAvailable t s).1 ≤ durableWordsLeft (mainAvailable t s).2 := by
  simp only [mainAvailable]
  cases hg : cacheGet t s with
  | some v =>
      simp only
      have hv : ∃ vwt : Int × Nat, s.cache = some vwt ∧ vwt.1 = v := by
        simp only [cacheGet] at hg
        cases hc : s.cache with
        | none => rw [hc] at hg; exact absurd hg (by simp)
        | some vwt =>
            rw [hc] at hg
            refine ⟨vwt, rfl, ?_⟩
            by_cases hlt : t < vwt.2 + cacheTTLNs
            · simpa [hlt] using hg
            · exact absurd hg (by simp [hlt])
      rcases hv with ⟨⟨v0, wt⟩, hc, hv0⟩
      rcases h v0 wt hc with ⟨u, hu, huv⟩
      simp only [durableWordsLeft, hu]
      omega
  | none =>
      cases hd : s.durable with
      | none => simp [durableWordsLeft]
      | some u => simp [durableWordsLeft, hd]

/-- C6: in every state reachable from the initial empty system by any
sequence of Available and Charge operations, Available never returns a
value strictly greater than the durable store's current wordsLeft (the
post-operation durable value, the row being created when absent), and a
cached value is only ever served while its age is strictly below the
5-minute TTL. -/
theorem available_bounded_and_fresh (ops : List MainOp) (t : Nat) :
    (mainAvailable t (runMain ops initState)).1 ≤
        durableWordsLeft (mainAvailable t (runMain ops initState)).2 ∧
      ∀ v wt, (runMain ops initState).cache = some (v, wt) →
        cacheGet t (runMain ops initState) = some v → t < wt + cacheTTLNs := by
  constructor
  · exact
      mainAvailable_le_of_agrees t (runMain ops initState)
        (cacheAgrees_runMain ops initState (by intro v wt hc; exact absurd hc (by simp [initState])))
  · intro v wt hc hg
    simp only [cacheGet, hc] at hg
    by_cases hlt : t < wt + cacheTTLNs
    · exact hlt
    · exact absurd hg (by simp [hlt])

theorem available_bounded_and_fresh_witness :
    (mainAvailable 3 (runMain [MainOp.available 0, MainOp.available 1, MainOp.charge 2 5]
          initState)).1 ≤
        durableWordsLeft
          (mainAvailable 3 (runMain [MainOp.available 0, MainOp.available 1, MainOp.charge 2 5]
            initState)).2 ∧
      3 < 2 + cacheTTLNs :=
  ⟨(available_bounded_and_fresh [MainOp.available 0, MainOp.available 1, MainOp.charge 2 5] 3).1,
    (available_bounded_and_fresh [MainOp.available 0, MainOp.available 1, MainOp.charge 2 5] 3).2
      999995 2 (by decide) (by decide)⟩

/-! ## Rate limiter (src/internal/middleware/ratelimit/ratelimit.go)

`RateLimiter.IsAllowed` keeps, per user, `{Count, LastReset}` under a
mutex (so calls for one user are serialised; we model the per-user
counter as an `Option UserCounter` and a call sequence as a list of
arrival instants).  Instants are nanoseconds; `time.Minute` is
`minuteNs`.  Go computes `now.Sub(counter.LastReset) >= time.Minute`; a
negative difference compares below the minute exactly as the truncated
`Nat` subtraction does. -/

structure UserCounter where
  count : Nat
  lastReset : Nat
  deriving Repr, DecidableEq

/-- 60 seconds in nanoseconds (`time.Minute`). -/
def minuteNs : Nat := 60000000000

/-- `RateLimiter.IsAllowed` (ratelimit.go lines 34-63) for one user:
returns the admission decision and the updated counter. -/
def isAllowed (now : Nat) (st : Option UserCounter) : Bool × Option UserCounter :=
  match st with
  | none => (true, some ⟨1, now⟩)
  | some c =>
      if minuteNs ≤ now - c.lastReset then
        (true, some ⟨1, now⟩)
      else if 100 ≤ c.count then
        (false, some c)
      else
        (true, some ⟨c.count + 1, c.lastReset⟩)

/-- The per-call log of one user's calls: each entry is the decision and
the counter state right after that call. -/
def runLog : List Nat → Option UserCounter → List (Bool × Option UserCounter)
  | [], _ => []
  | t :: ts, st =>
      let r := isAllowed t st
      r :: runLog ts r.2

/-- Whether a log entry is an admission accounted to the window whose
`windowStart` (LastReset) is `w`. -/
def entryInWindow (w : Nat) (e : Bool × Option UserCounter) : Bool :=
  e.1 && (match e.2 with
    | some c => c.lastReset == w
    | none => false)

/-- Number of admitted requests accounted to the window starting at `w`. -/
def windowAdmits (log : List (Bool × Option UserCounter)) (w : Nat) : Nat :=
  log.countP (entryInWindow w)

/-- The admissions already consumed in window `w` by the current counter. -/
def stateCarry (st : Option UserCounter) (w : Nat) : Nat :=
  match st with
  | some c => if c.lastReset = w then c.count else 0
  | none => 0

theorem runLog_lastReset_lb (ts : List Nat) :
    ∀ (st : Option UserCounter) (lb : Nat),
      (∀ c, st = some c → lb ≤ c.lastReset) →
      (∀ t ∈ ts, lb ≤ t) →
      ∀ e ∈ runLog ts st, ∀ c, e.2 = some c → lb ≤ c.lastReset := by
  induction ts with
  | nil => intro st lb _ _ e he; exact absurd he (by simp [runLog])
  | cons t ts ih =>
      intro st lb hst hts e he c hec
      have hlbt : lb ≤ t := hts t (List.mem_cons_self t ts)
      have hts2 : ∀ x ∈ ts, lb ≤ x := fun x hx => hts x (List.mem_cons_of_mem t hx)
      simp only [runLog, List.mem_cons] at he
      rcases he with he | he
      · subst he
        cases st with
        | none =>
            simp only [isAllowed] at hec
            cases hec
            exact hlbt
        | some c0 =>
            have hlb0 : lb ≤ c0.lastReset := hst c0 rfl
            simp only [isAllowed] at hec
            split at hec
            · cases hec; exact hlbt
            · split at hec
              · cases hec; exact hlb0
              · cases hec; exact hlb0
      · refine ih (isAllowed t st).2 lb ?_ hts2 e he c hec
        intro c1 hc1
        cases st with
        | none =>
            simp only [isAllowed] at hc1
            cases hc1
            exact hlbt
        | some c0 =>
            have hlb0 : lb ≤ c0.lastReset := hst c0 rfl
            simp only [isAllowed] at hc1
            split at hc1
            · cases hc1; exact hlbt
            · split at hc1
              · cases hc1; exact hlb0
              · cases hc1; exact hlb0

theorem windowAdmits_eq_zero_of_lb (log : List (Bool × Option UserCounter))
    (w lb : Nat) (hw : w < lb)
    (h : ∀ e ∈ log, ∀ c, e.2 = some c → lb ≤ c.lastReset) :
    windowAdmits log w = 0 := by
  refine List.countP_eq_zero.mpr ?_
  intro e he
  simp only [entryInWindow, Bool.and_eq_true]
  intro hcontra
  rcases hcontra with ⟨_, h2⟩
  cases hc : e.2 with
  | none => rw [hc] at h2; exact absurd h2 (by simp)
  | some c =>
      rw [hc] at h2
      have : c.lastReset = w := by
        simpa using h2
      have := h e he c hc
      omega

theorem runLog_window_bound (ts : List Nat) :
    ∀ (st : Option UserCounter),
      ts.Pairwise (· ≤ ·) →
      (∀ c, st = some c → c.count ≤ 100 ∧ ∀ t ∈ ts, c.lastReset ≤ t) →
      ∀ w, windowAdmits (runLog ts st) w + stateCarry st w ≤ 100 := by
  induction ts with
  | nil =>
      intro st _ hst w
      simp only [runLog, windowAdmits, List.countP_nil, Nat.zero_add]
      cases st with
      | none => simp [stateCarry]
      | some c =>
          simp only [stateCarry]
          split
          · exact (hst c rfl).1
          · omega
  | cons t ts ih =>
      intro st hsort hst w
      have hsort2 : ts.Pairwise (· ≤ ·) := (List.pairwise_cons.mp hsort).2
      have hhead : ∀ x ∈ ts, t ≤ x := (List.pairwise_cons.mp hsort).1
      simp only [runLog, windowAdmits, List.countP_cons]
      cases st with
      | none =>
          simp only [isAllowed]
          have hiw := ih (some ⟨1, t⟩) hsort2
            (by intro c hc; cases hc; exact ⟨(by omega : (1 : Nat) ≤ 100), hhead⟩) w
          simp only [windowAdmits, stateCarry] at hiw
          by_cases htw : t = w
          · subst htw
            have hE : entryInWindow t (true, some ⟨1, t⟩) = true := by
              simp [entryInWindow]
            simp only [stateCarry]
            simp [hE] at hiw ⊢
            omega
          · have hE : entryInWindow w (true, some ⟨1, t⟩) = false := by
              simp [entryInWindow, htw]
            simp only [stateCarry]
            simp [hE, htw] at hiw ⊢
            omega
      | some c =>
          obtain ⟨hcount, hreset⟩ := hst c rfl
          have hresets : ∀ x ∈ ts, c.lastReset ≤ x :=
            fun x hx => Nat.le_trans (hreset t (List.mem_cons_self t ts)) (hhead x hx)
          simp only [isAllowed]
          by_cases hmin : minuteNs ≤ t - c.lastReset
          · -- reset-and-admit branch: a fresh window starts at t
            have hlt : c.lastReset < t := by
              have hm : minuteNs = 60000000000 := rfl
              omega
            simp only [if_pos hmin]
            have hiw := ih (some ⟨1, t⟩) hsort2
              (by intro c1 hc1; cases hc1; exact ⟨(by omega : (1 : Nat) ≤ 100), hhead⟩) w
            simp only [windowAdmits, stateCarry] at hiw
            have hzero : List.countP (entryInWindow c.lastReset)
                (runLog ts (some ⟨1, t⟩)) = 0 := by
              have h0 : windowAdmits (runLog ts (some ⟨1, t⟩)) c.lastReset = 0 := by
                refine windowAdmits_eq_zero_of_lb _ c.lastReset t hlt ?_
                refine runLog_lastReset_lb ts (some ⟨1, t⟩) t ?_ hhead
                intro c1 hc1; cases hc1; exact Nat.le_refl t
              simpa [windowAdmits] using h0
            by_cases htw : t = w
            · subst htw
              have hE : entryInWindow t (true, some ⟨1, t⟩) = true := by
                simp [entryInWindow]
              have hcne : ¬ c.lastReset = t := by omega
              simp only [stateCarry]
              simp [hE, hcne] at hiw ⊢
              omega
            · have hE : entryInWindow w (true, some ⟨1, t⟩) = false := by
                simp [entryInWindow, htw]
              simp only [stateCarry]
              by_cases hcw : c.lastReset = w
              · subst hcw
                simp [hE, htw] at hiw ⊢
                omega
              · simp [hE, htw, hcw] at hiw ⊢
                omega
          · simp only [if_neg hmin]
            by_cases hfull : 100 ≤ c.count
            · -- reject branch: counter unchanged, entry is not an admission
              simp only [if_pos hfull]
              have hiw := ih (some c) hsort2
                (by intro c1 hc1; cases hc1; exact ⟨hcount, hresets⟩) w
              simp only [windowAdmits] at hiw
              have hE : entryInWindow w (false, some c) = false := by
                simp [entryInWindow]
              simp [hE]
              omega
            · -- admit within the current window
              simp only [if_neg hfull]
              have hiw := ih (some ⟨c.count + 1, c.lastReset⟩) hsort2
                (by intro c1 hc1; cases hc1;
                    exact ⟨(by omega : c.count + 1 ≤ 100), hresets⟩) w
              simp only [windowAdmits, stateCarry] at hiw
              by_cases hcw : c.lastReset = w
              · subst hcw
                have hE : entryInWindow c.lastReset
                    (true, some ⟨c.count + 1, c.lastReset⟩) = true := by
                  simp [entryInWindow]
                simp only [stateCarry]
                simp [hE] at hiw ⊢
                omega
              · have hE : entryInWindow w
                    (true, some ⟨c.count + 1, c.lastReset⟩) = false := by
                  simp [entryInWindow, hcw]
                simp only [stateCarry]
                simp [hE, hcw] at hiw ⊢
                omega

/-- C3: for a user whose Admit calls arrive at nondecreasing instants,
at most 100 calls are admitted within any single window (all admissions
accounted to one windowStart value); the first Admit creates the counter
with count 1 and admits; and an Admit arriving 60 seconds or more after
windowStart resets the counter to count 1 and admits. -/
theorem admit_window_bound (ts : List Nat) (hsort : ts.Pairwise (· ≤ ·)) :
    (∀ w, windowAdmits (runLog ts none) w ≤ 100) ∧
      (∀ t, isAllowed t none = (true, some ⟨1, t⟩)) ∧
      (∀ t cnt w, minuteNs ≤ t - w →
        isAllowed t (some ⟨cnt, w⟩) = (true, some ⟨1, t⟩)) := by
  refine ⟨?_, ?_, ?_⟩
  · intro w
    have := runLog_window_bound ts none hsort (by intro c hc; cases hc) w
    simpa [stateCarry] using this
  · intro t; rfl
  · intro t cnt w hmin
    simp only [isAllowed, if_pos hmin]

theorem admit_window_bound_witness :
    (windowAdmits (runLog [0, 10, minuteNs] none) 0 ≤ 100) ∧
      isAllowed 5 none = (true, some ⟨1, 5⟩) ∧
      isAllowed minuteNs (some ⟨100, 0⟩) = (true, some ⟨1, minuteNs⟩) :=
  ⟨(admit_window_bound [0, 10, minuteNs] (by decide)).1 0,
    (admit_window_bound [0, 10, minuteNs] (by decide)).2.1 5,
    (admit_window_bound [0, 10, minuteNs] (by decide)).2.2 minuteNs 100 0 (by decide)⟩

/-! ## Streaming session, handlers revision (Handler.GenerateData)

The loop of src/internal/models/models.go lines 281-311.  The deadline /
client-cancellation `select` is modelled by `fuel`: the number of loop
iterations the 60-second context allows before `ctx.Done()` fires.  The
session's seeded random source (`rand.New(rand.NewSource(seed))`) is
modelled as the stream of successive `Intn(len(words))` draws it
produces, a function from draw index to `Nat` (reduced mod 100 where
used); a fixed seed determines a fixed stream. -/

/-- The 100-word vocabulary of `services.GenerateRandomWords`
(src/internal/models/models.go lines 127-138). -/
def vocab100 : List String :=
  ["the", "be", "to", "of", "and", "a", "in", "that", "have", "I",
   "it", "for", "not", "on", "with", "he", "as", "you", "do", "at",
   "this", "but", "his", "by", "from", "they", "we", "say", "her", "she",
   "or", "an", "will", "my", "one", "all", "would", "there", "their", "what",
   "so", "up", "out", "if", "about", "who", "get", "which", "go", "me",
   "when", "make", "can", "like", "time", "no", "just", "him", "know", "take",
   "people", "into", "year", "your", "good", "some", "could", "them", "see", "other",
   "than", "then", "now", "look", "only", "come", "its", "over", "think", "also",
   "back", "after", "use", "two", "how", "our", "work", "first", "well", "way",
   "even", "new", "want", "because", "any", "these", "give", "day", "most", "us"]

/-- Modelled from the spec: the three-argument
`services.GenerateRandomWords(streamRand, 1, stopToken)` called by
`Handler.GenerateData` is absent from src/ (only its callers appear; the
one-argument revision shows the vocabulary).  Per spec section 4.3 it
draws one token uniformly at random from the fixed vocabulary using the
session's random source and reports whether the token equals the
configured stop token (case-sensitive exact match).  `draw` is the raw
value produced by the random source for this call. -/
def generateOneWord (draw : Nat) (stopToken : String) : String × Bool :=
  let word := vocab100.getD (draw % 100) ""
  (word, word == stopToken)

/-- The word emitted for draw index `i` of the stream. -/
def drawWord (stream : Nat → Nat) (i : Nat) : String :=
  vocab100.getD (stream i % 100) ""

/-- The early-stop test at the top of each loop iteration
(models.go line 288):
`(maxTokens != -1 && wordsGenerated >= maxTokens) || wordsGenerated >= user.WordsLeft`. -/
def stopCond (maxTokens wordsLeft : Int) (wordsGenerated : Nat) : Prop :=
  (maxTokens ≠ -1 ∧ maxTokens ≤ (wordsGenerated : Int)) ∨ wordsLeft ≤ (wordsGenerated : Int)

instance (mT wL : Int) (n : Nat) : Decidable (stopCond mT wL n) := by
  unfold stopCond; infer_instance

/-- The emission loop of `Handler.GenerateData`: returns the list of
tokens written to the sink.  Each iteration checks the early-stop test,
draws one word, emits it, increments the count, and stops after emitting
a word equal to the stop token. -/
def sessionRun (fuel : Nat) (maxTokens wordsLeft : Int) (stopToken : String)
    (stream : Nat → Nat) (wordsGenerated : Nat) : List String :=
  match fuel with
  | 0 => []
  | f + 1 =>
      if stopCond maxTokens wordsLeft wordsGenerated then []
      else
        let wf := generateOneWord (stream wordsGenerated) stopToken
        if wf.2 then [wf.1]
        else wf.1 :: sessionRun f maxTokens wordsLeft stopToken stream (wordsGenerated + 1)

theorem sessionRun_nil_of_stop (fuel : Nat) (mT wL : Int) (st : String)
    (stream : Nat → Nat) (n : Nat) (h : stopCond mT wL n) :
    sessionRun fuel mT wL st stream n = [] := by
  cases fuel with
  | zero => rfl
  | succ f => simp [sessionRun, if_pos h]

theorem sessionRun_quota_bound (wL : Int) (mT : Int) (st : String)
    (stream : Nat → Nat) :
    ∀ (fuel n : Nat), (n : Int) < wL →
      ((sessionRun fuel mT wL st stream n).length : Int) + n ≤ wL := by
  intro fuel
  induction fuel with
  | zero => intro n hn; simp [sessionRun]; omega
  | succ f ih =>
      intro n hn
      by_cases hstop : stopCond mT wL n
      · rw [sessionRun_nil_of_stop]
        · simp; omega
        · exact hstop
      · simp only [sessionRun, if_neg hstop]
        by_cases hfound : (generateOneWord (stream n) st).2
        · simp [if_pos hfound]; omega
        · simp only [if_neg hfound, List.length_cons]
          by_cases hnext : ((n : Int) + 1) < wL
          · have := ih (n + 1) (by push_cast; omega)
            push_cast at this ⊢
            omega
          · have hstop2 : stopCond mT wL (n + 1) := by
              right; push_cast; omega
            rw [sessionRun_nil_of_stop f mT wL st stream (n + 1) hstop2]
            simp; omega

theorem sessionRun_maxTokens_bound (mT : Int) (hmT : 0 ≤ mT) (wL : Int) (st : String)
    (stream : Nat → Nat) :
    ∀ (fuel n : Nat), (n : Int) < mT →
      ((sessionRun fuel mT wL st stream n).length : Int) + n ≤ mT := by
  intro fuel
  induction fuel with
  | zero => intro n hn; simp [sessionRun]; omega
  | succ f ih =>
      intro n hn
      by_cases hstop : stopCond mT wL n
      · rw [sessionRun_nil_of_stop]
        · simp; omega
        · exact hstop
      · simp only [sessionRun, if_neg hstop]
        by_cases hfound : (generateOneWord (stream n) st).2
        · simp [if_pos hfound]; omega
        · simp only [if_neg hfound, List.length_cons]
          by_cases hnext : ((n : Int) + 1) < mT
          · have := ih (n + 1) (by push_cast; omega)
            push_cast at this ⊢
            omega
          · have hstop2 : stopCond mT wL (n + 1) := by
              left; exact ⟨by omega, by push_cast; omega⟩
            rw [sessionRun_nil_of_stop f mT wL st stream (n + 1) hstop2]
            simp; omega

/-- C4 amended: in the handlers revision (Handler.GenerateData), a
session started with remaining quota wordsLeft never emits more tokens
than wordsLeft (so the subsequent charge of the emitted count never
exceeds that bound), and when a non-negative maxTokens cap is set the
emission count also never exceeds the cap — for every fuel (deadline
budget), stop token and random stream.  The main.go revision's loop has
no such stop (see the counterexample on `mainSessionRun`). -/
theorem session_never_exceeds_quota (fuel : Nat) (mT wL : Int) (st : String)
    (stream : Nat → Nat) (hwL : 0 ≤ wL) :
    ((sessionRun fuel mT wL st stream 0).length : Int) ≤ wL ∧
      (0 ≤ mT → ((sessionRun fuel mT wL st stream 0).length : Int) ≤ mT) := by
  constructor
  · by_cases h0 : (0 : Int) < wL
    · have := sessionRun_quota_bound wL mT st stream fuel 0 (by exact_mod_cast h0)
      omega
    · have hz : wL ≤ (0 : Int) := by omega
      rw [sessionRun_nil_of_stop fuel mT wL st stream 0 (Or.inr (by exact_mod_cast hz))]
      simpa using hwL
  · intro hmT
    by_cases h0 : (0 : Int) < mT
    · have := sessionRun_maxTokens_bound mT hmT wL st stream fuel 0 (by exact_mod_cast h0)
      omega
    · have hz : mT = 0 := by omega
      subst hz
      rw [sessionRun_nil_of_stop fuel 0 wL st stream 0 (Or.inl ⟨by omega, by simp⟩)]
      simp

theorem session_never_exceeds_quota_witness :
    ((sessionRun 3 (-1) 2 "zzz" (fun _ => 0) 0).length : Int) ≤ 2 ∧
      (0 ≤ (-1 : Int) → ((sessionRun 3 (-1) 2 "zzz" (fun _ => 0) 0).length : Int) ≤ -1) :=
  session_never_exceeds_quota 3 (-1) 2 "zzz" (fun _ => 0) (by decide)

theorem generateOneWord_fst (d : Nat) (st : String) :
    (generateOneWord d st).1 = vocab100.getD (d % 100) "" := rfl

theorem generateOneWord_found_iff (d : Nat) (st : String) :
    (generateOneWord d st).2 = true ↔ vocab100.getD (d % 100) "" = st := by
  simp [generateOneWord]

/-- If the loop's early-stop test stays false for `k` iterations, none of
the first `k` draws is the stop token, and the test then becomes true,
the session emits exactly those `k` draws. -/
theorem sessionRun_exact (mT wL : Int) (st : String) (stream : Nat → Nat) :
    ∀ (k fuel n : Nat), k + 1 ≤ fuel →
      (∀ i, i < k → drawWord stream (n + i) ≠ st) →
      (∀ i, i < k → ¬ stopCond mT wL (n + i)) →
      stopCond mT wL (n + k) →
      sessionRun fuel mT wL st stream n =
        (List.range' n k).map (drawWord stream) := by
  intro k
  induction k with
  | zero =>
      intro fuel n hfuel _ _ hstop
      simp only [List.range', List.map_nil]
      exact sessionRun_nil_of_stop fuel mT wL st stream n (by simpa using hstop)
  | succ k ih =>
      intro fuel n hfuel hdraw hrun hstop
      obtain ⟨f, rfl⟩ : ∃ f, fuel = f + 1 := ⟨fuel - 1, by omega⟩
      have hns : ¬ stopCond mT wL n := by
        have := hrun 0 (by omega)
        simpa using this
      simp only [sessionRun, if_neg hns]
      have hword : (generateOneWord (stream n) st).1 = drawWord stream n := rfl
      have hnf : (generateOneWord (stream n) st).2 = false := by
        rw [Bool.eq_false_iff]
        intro hcontra
        have := (generateOneWord_found_iff (stream n) st).mp hcontra
        exact hdraw 0 (by omega) (by simpa [drawWord] using this)
      simp only [hnf, Bool.false_eq_true, if_false, hword]
      have hrec := ih f (n + 1) (by omega)
        (by intro i hi
            have := hdraw (i + 1) (by omega)
            simpa [Nat.add_assoc, Nat.add_comm 1 i] using this)
        (by intro i hi
            have := hrun (i + 1) (by omega)
            simpa [Nat.add_assoc, Nat.add_comm 1 i] using this)
        (by have : n + (k + 1) = n + 1 + k := by omega
            rw [this] at hstop
            exact hstop)
      rw [hrec]
      rw [List.range'_succ]
      simp [drawWord]

/-- C8: with maxTokens = 5, enough deadline budget (at least six loop
iterations), quota at least 5 and no stop token among the first five
draws, the session emits exactly 5 tokens and the subsequent ledger
charge (`UpdateWordsLeft` of the emitted count) decrements wordsLeft by
exactly 5. -/
theorem session_max_tokens_five (fuel : Nat) (wL : Int) (st : String)
    (stream : Nat → Nat) (hfuel : 6 ≤ fuel) (hwL : 5 ≤ wL)
    (hns : ∀ i, i < 5 → drawWord stream i ≠ st) :
    (sessionRun fuel 5 wL st stream 0).length = 5 ∧
      updateWordsLeftVal wL ((sessionRun fuel 5 wL st stream 0).length : Int) = wL - 5 := by
  have hrun : sessionRun fuel 5 wL st stream 0 =
      (List.range' 0 5).map (drawWord stream) := by
    refine sessionRun_exact 5 wL st stream 5 fuel 0 (by omega) ?_ ?_ ?_
    · intro i hi; simpa using hns i hi
    · intro i hi
      intro hcontra
      rcases hcontra with ⟨_, h5⟩ | hq
      · simp at h5; omega
      · simp at hq; omega
    · left
      exact ⟨by omega, by simp⟩
  have hlen : (sessionRun fuel 5 wL st stream 0).length = 5 := by
    rw [hrun]; simp
  refine ⟨hlen, ?_⟩
  rw [hlen]
  simp only [updateWordsLeftVal]
  omega

theorem session_max_tokens_five_witness :
    (sessionRun 6 5 1000000 "zzz" (fun i => i) 0).length = 5 ∧
      updateWordsLeftVal 1000000 ((sessionRun 6 5 1000000 "zzz" (fun i => i) 0).length : Int) =
        1000000 - 5 :=
  session_max_tokens_five 6 1000000 "zzz" (fun i => i) (by omega) (by omega)
    (by decide)

/-- C7: with no maxTokens cap, if for the session's (seed-determined)
draw stream the first occurrence of the stop token is at draw index j,
and neither the deadline budget nor the quota truncates the stream
before that point, the session emits exactly the first j draws followed
by the stop token — it terminates at the first generated occurrence of
the stop token (case-sensitive match against the vocabulary word) — and
two sessions whose seeds produce the same draw stream emit identical
token sequences. -/
theorem session_stop_token_deterministic (fuel : Nat) (wL : Int) (st : String)
    (stream1 stream2 : Nat → Nat) (j : Nat)
    (hfuel : j + 1 ≤ fuel) (hwL : (j : Int) < wL)
    (hbefore : ∀ i, i < j → drawWord stream1 i ≠ st)
    (hat : drawWord stream1 j = st) :
    sessionRun fuel (-1) wL st stream1 0 =
        ((List.range' 0 j).map (drawWord stream1)) ++ [st] ∧
      ((∀ i, stream1 i = stream2 i) →
        sessionRun fuel (-1) wL st stream1 0 = sessionRun fuel (-1) wL st stream2 0) := by
  constructor
  · -- emit the j non-stop draws, then one more iteration emits the stop token
    have hmain : ∀ (f n : Nat) (jr : Nat), jr + 1 ≤ f →
        (∀ i, i < jr → drawWord stream1 (n + i) ≠ st) →
        drawWord stream1 (n + jr) = st →
        ((n + jr : Nat) : Int) < wL →
        sessionRun f (-1) wL st stream1 n =
          ((List.range' n jr).map (drawWord stream1)) ++ [st] := by
      intro f
      induction f with
      | zero => intro n jr hf; omega
      | succ f ihf =>
          intro n jr hf hb ha hq
          cases jr with
          | zero =>
              have hns : ¬ stopCond (-1) wL n := by
                intro hcontra
                rcases hcontra with ⟨hne, _⟩ | hwq
                · exact hne rfl
                · simp at hq; omega
              simp only [sessionRun, if_neg hns]
              have hfound : (generateOneWord (stream1 n) st).2 = true := by
                rw [generateOneWord_found_iff]
                simpa [drawWord] using ha
              simp only [hfound, if_true]
              simp only [List.range', List.map_nil, List.nil_append]
              have : (generateOneWord (stream1 n) st).1 = drawWord stream1 n := rfl
              rw [this]
              simpa using ha
          | succ jr =>
              have hns : ¬ stopCond (-1) wL n := by
                intro hcontra
                rcases hcontra with ⟨hne, _⟩ | hwq
                · exact hne rfl
                · simp at hq; omega
              simp only [sessionRun, if_neg hns]
              have hword : (generateOneWord (stream1 n) st).1 = drawWord stream1 n := rfl
              have hnf : (generateOneWord (stream1 n) st).2 = false := by
                rw [Bool.eq_false_iff]
                intro hcontra
                have := (generateOneWord_found_iff (stream1 n) st).mp hcontra
                exact hb 0 (by omega) (by simpa [drawWord] using this)
              simp only [hnf, Bool.false_eq_true, if_false, hword]
              have hrec := ihf (n + 1) jr (by omega)
                (by intro i hi
                    have := hb (i + 1) (by omega)
                    simpa [Nat.add_assoc, Nat.add_comm 1 i] using this)
                (by have : n + (jr + 1) = n + 1 + jr := by omega
                    rw [this] at ha
                    exact ha)
                (by have : n + (jr + 1) = n + 1 + jr := by omega
                    rw [this] at hq
                    exact_mod_cast hq)
              rw [hrec, List.range'_succ]
              simp [drawWord]
    have := hmain fuel 0 j hfuel (by simpa using hbefore) (by simpa using hat)
      (by simpa using hwL)
    simpa using this
  · intro hstreams
    have : stream1 = stream2 := funext hstreams
    rw [this]

theorem session_stop_token_deterministic_witness :
    sessionRun 4 (-1) 10 "of" (fun i => i) 0 =
        ((List.range' 0 3).map (drawWord (fun i => i))) ++ ["of"] ∧
      ((∀ i : Nat, (fun i : Nat => i) i = (fun i : Nat => i) i) →
        sessionRun 4 (-1) 10 "of" (fun i => i) 0 =
          sessionRun 4 (-1) 10 "of" (fun i => i) 0) :=
  session_stop_token_deterministic 4 10 "of" (fun i => i) (fun i => i) 3
    (by omega) (by omega) (by decide) (by decide)

/-! ## Streaming session, monolithic revision (generateDataHandler)

The loop of src/main.go lines 285-315: before the loop,
`maxWords := 100 + rand.Intn(400)`; each iteration stops once
`wordCount >= maxWords`, otherwise emits one word from the 24-word
vocabulary.  There is no stop-token, maxTokens or quota check inside
this loop.  `fuel` models the iterations the 60-second context allows,
and `r` models the `rand.Intn(400)` result (any value below 400). -/

/-- The 24-entry vocabulary of `generateDataHandler`
(src/main.go lines 278-283; "learning" appears twice in the source). -/
def mainVocab : List String :=
  ["artificial", "intelligence", "machine", "learning", "neural", "network",
   "algorithm", "data", "science", "computer", "vision", "natural", "language",
   "processing", "deep", "learning", "transformer", "model", "training",
   "inference", "prediction", "classification", "regression", "clustering"]

def mainSessionRun (fuel maxWords : Nat) (stream : Nat → Nat) (wordCount : Nat) :
    List String :=
  match fuel with
  | 0 => []
  | f + 1 =>
      if maxWords ≤ wordCount then []
      else
        mainVocab.getD (stream wordCount % 24) "" ::
          mainSessionRun f maxWords stream (wordCount + 1)

theorem mainSessionRun_length_le (maxWords : Nat) (stream : Nat → Nat) :
    ∀ (fuel n : Nat), (mainSessionRun fuel maxWords stream n).length + n ≤
      max n maxWords := by
  intro fuel
  induction fuel with
  | zero => intro n; simp [mainSessionRun]
  | succ f ih =>
      intro n
      by_cases h : maxWords ≤ n
      · simp [mainSessionRun, if_pos h]
      · simp only [mainSessionRun, if_neg h, List.length_cons]
        have := ih (n + 1)
        omega

/-- C10: the main.go revision draws a per-session cap
maxWords = 100 + rand.Intn(400), so 100 ≤ maxWords ≤ 499, and the loop
stops once that many tokens have been emitted: regardless of the
remaining deadline budget (fuel) and with no quota test in the loop, the
session emits (and therefore subsequently charges) at most maxWords,
hence at most 499 tokens. -/
theorem main_session_cap (r : Nat) (hr : r < 400) (fuel : Nat) (stream : Nat → Nat) :
    100 ≤ 100 + r ∧ 100 + r ≤ 499 ∧
      (mainSessionRun fuel (100 + r) stream 0).length ≤ 100 + r ∧
      (mainSessionRun fuel (100 + r) stream 0).length ≤ 499 := by
  have hb := mainSessionRun_length_le (100 + r) stream fuel 0
  refine ⟨by omega, by omega, by omega, by omega⟩

theorem main_session_cap_witness :
    100 ≤ 100 + 0 ∧ 100 + 0 ≤ 499 ∧
      (mainSessionRun 2 (100 + 0) (fun _ => 0) 0).length ≤ 100 + 0 ∧
      (mainSessionRun 2 (100 + 0) (fun _ => 0) 0).length ≤ 499 :=
  main_session_cap 0 (by omega) 2 (fun _ => 0)

/-- C4 counterexample: the main.go revision's streaming loop
(generateDataHandler, src/main.go lines 289-315) tests only the
per-session maxWords cap and the deadline — it has no quota or maxTokens
test.  A session admitted with wordsLeft = 2 (the handler only checks
wordsLeft > 0 before streaming) whose deadline allows 3 iterations with
maxWords = 100 + 0 emits 3 tokens, exceeding its wordsLeft bound, and
the subsequent charge of the emitted count 3 also exceeds that bound
(the durable value merely floors at 0).  So "a session never emits, and
never charges, more tokens than the wordsLeft bound it was given" is
false for this cited revision. -/
theorem mainSession_exceeds_quota_cex :
    2 < (mainSessionRun 3 (100 + 0) (fun _ => 0) 0).length ∧
      chargeNewWordsLeft 2 ((mainSessionRun 3 (100 + 0) (fun _ => 0) 0).length : Int) = 0 := by
  decide

/-! ## Quota inspection (C9)

Two distinct endpoints exist:
* `Handler.GetUserStats` (src/internal/models/models.go lines 335-364):
  consults the `user_stats:<userID>` Redis key first; on a miss calls
  `UserService.GetUserStats` (a plain SELECT — no creation), computes
  wordsUsed = totalWords − wordsLeft, caches the result for 5 minutes
  and returns it.  When the row is absent, `UserService.GetUserStats`
  wraps `sql.ErrNoRows` in `fmt.Errorf(...: %w ...)`, so the handler's
  `err == sql.ErrNoRows` comparison fails and it answers 500 (it would
  answer 404 on an unwrapped ErrNoRows; either way an error, never lazy
  creation).
* `getUserStatsHandler` (src/main.go lines 418-452): no cache; lazily
  creates the default 1,000,000/1,000,000 row for an unknown userID and
  returns {userID, wordsLeft, totalWords} — with no wordsUsed field. -/

structure UserStats where
  userID : String
  wordsLeft : Int
  totalWords : Int
  wordsUsed : Int
  deriving Repr, DecidableEq

/-- State for the handlers stats endpoint: the durable row and the
`user_stats` cache entry (stats snapshot, writeTime). -/
structure StatsState where
  durable : Option UserRecord
  cache : Option (UserStats × Nat)
  deriving Repr, DecidableEq

def statsCacheGet (t : Nat) (s : StatsState) : Option UserStats :=
  match s.cache with
  | some (v, wt) => if t < wt + cacheTTLNs then some v else none
  | none => none

/-- `UserService.GetUserStats` (models.go lines 103-114): SELECT the
row, error when absent, fill wordsUsed = totalWords − wordsLeft. -/
def serviceGetUserStats (uid : String) (s : StatsState) : Except Unit UserStats :=
  match s.durable with
  | none => Except.error ()
  | some u =>
      Except.ok ⟨uid, u.wordsLeft, u.totalWords, u.totalWords - u.wordsLeft⟩

/-- `Handler.GetUserStats` (models.go lines 335-364): read-through over
`serviceGetUserStats`; an error surfaces as an HTTP status (500, see the
section comment) and performs no creation. -/
def handlersGetUserStats (uid : String) (t : Nat) (s : StatsState) :
    (Except Nat UserStats) × StatsState :=
  match statsCacheGet t s with
  | some v => (Except.ok v, s)
  | none =>
      match serviceGetUserStats uid s with
      | Except.error _ => (Except.error 500, s)
      | Except.ok stats =>
          (Except.ok stats, { s with cache := some (stats, t) })

/-- `getUserStatsHandler` (main.go lines 418-452): direct durable read,
lazily creating the default row; returns (userID, wordsLeft, totalWords)
— no wordsUsed — and never touches the cache. -/
def mainGetUserStats (uid : String) (s : SysState) :
    (String × Int × Int) × SysState :=
  match s.durable with
  | none =>
      ((uid, 1000000, 1000000), { s with durable := some ⟨1000000, 1000000⟩ })
  | some u => ((uid, u.wordsLeft, u.totalWords), s)

/-- C9 counterexample: for a userID with no durable record (and an empty
cache) the cache-backed stats endpoint returns an error — it does not
lazily create the user with the default quota as the claim states. -/
theorem handlersGetUserStats_unknown_user_errors :
    handlersGetUserStats "alice" 0 ⟨none, none⟩ =
      (Except.error 500, ⟨none, none⟩) := rfl

/-- C9 amended: the cache-backed stats endpoint returns
{userID, wordsLeft, wordsTotal, wordsUsed = wordsTotal − wordsLeft},
served from the cache when a fresh entry exists and otherwise from the
durable store (whose answer it then caches), but a userID with no
durable record yields an error response, not lazy creation; lazy
creation on inspection exists only in the main.go revision's stats
handler, which bypasses the cache and returns only
{userID, wordsLeft, totalWords} without a wordsUsed field. -/
theorem stats_endpoint_spec (uid : String) (t : Nat) (s : StatsState) (ms : SysState) :
    (∀ v, statsCacheGet t s = some v → handlersGetUserStats uid t s = (Except.ok v, s)) ∧
      (∀ u, statsCacheGet t s = none → s.durable = some u →
        handlersGetUserStats uid t s =
          (Except.ok ⟨uid, u.wordsLeft, u.totalWords, u.totalWords - u.wordsLeft⟩,
            { s with cache := some (⟨uid, u.wordsLeft, u.totalWords,
                u.totalWords - u.wordsLeft⟩, t) })) ∧
      (statsCacheGet t s = none → s.durable = none →
        handlersGetUserStats uid t s = (Except.error 500, s)) ∧
      (ms.durable = none →
        mainGetUserStats uid ms =
          ((uid, 1000000, 1000000), { ms with durable := some ⟨1000000, 1000000⟩ })) ∧
      (∀ u, ms.durable = some u →
        mainGetUserStats uid ms = ((uid, u.wordsLeft, u.totalWords), ms)) := by
  refine ⟨?_, ?_, ?_, ?_, ?_⟩
  · intro v hv; simp only [handlersGetUserStats, hv]
  · intro u hm hd
    simp only [handlersGetUserStats, hm, serviceGetUserStats, hd]
  · intro hm hd
    simp only [handlersGetUserStats, hm, serviceGetUserStats, hd]
  · intro hd; simp only [mainGetUserStats, hd]
  · intro u hd; simp only [mainGetUserStats, hd]

theorem stats_endpoint_spec_witness :
    handlersGetUserStats "alice" 0 ⟨some ⟨40, 100⟩, none⟩ =
      (Except.ok ⟨"alice", 40, 100, 60⟩,
        { durable := some ⟨40, 100⟩, cache := some (⟨"alice", 40, 100, 60⟩, 0) }) :=
  (stats_endpoint_spec "alice" 0 ⟨some ⟨40, 100⟩, none⟩ ⟨none, none⟩).2.1
    ⟨40, 100⟩ rfl rfl

end Manifold
